import Mathlib

/-!
# A shallow embedding of the TensorUtils core

The repository ships two headers: `include/TensorUtils.hpp` (the public alias
`tensor<T,N> = TensorDerived<T,N>` plus user documentation) and
`include/ErrorHandler.hpp` (the three error classes `ShapeMismatch`,
`RankMismatch`, `UnableToOpenFile`, plus a long documented usage example).
The implementation files `TensorBase.hpp` / `TensorDerived.hpp` are not part
of the repository snapshot, so the operational behaviour of the tensor class
is modelled from the specification, constrained by the documented examples in
`ErrorHandler.hpp` wherever those examples pin the behaviour down (in
particular the error kind raised by each invalid call).
-/

namespace TensorSpec

/-- The error kinds of `ErrorHandler.hpp`: `ShapeMismatch` and `RankMismatch`
are the classes declared there, `outOfRange` stands for `std::out_of_range`,
and `unableToOpenFile` for the file-I/O error class. -/
inductive Err where
  | shapeMismatch
  | rankMismatch
  | outOfRange
  | unableToOpenFile
deriving DecidableEq

/-- Modelled from the spec: the derived `size` of a shape, the product of all
dimensions, with the empty product equal to 1 (`TensorBase` is not under
`src/`). -/
def shapeSize : List Nat → Nat
  | [] => 1
  | d :: ds => d * shapeSize ds

/-- Modelled from the spec: row-major strides, `strides[i]` being the product
of the dimensions after axis `i` (`TensorBase` is not under `src/`). -/
def strides : List Nat → List Nat
  | [] => []
  | _ :: ds => ds.prod :: strides ds

/-- Modelled from the spec: the flat storage offset of a (possibly only
partially supplied) multi-index, the sum over the supplied indices of
`index[i] * strides[i]` (`TensorBase` is not under `src/`). -/
def offset (dims idx : List Nat) : Nat :=
  (List.zipWith (fun i s => i * s) idx (strides dims)).sum

/-- Modelled from the spec: bounds check of the supplied indices against the
leading dimensions, each supplied index having to be smaller than its axis's
dimension (`TensorBase` is not under `src/`). -/
def inBounds : List Nat → List Nat → Bool
  | _, [] => true
  | [], _ :: _ => false
  | d :: ds, i :: is => decide (i < d) && inBounds ds is

/-- Modelled from the spec and from the documented example of
`ErrorHandler.hpp`: the multi-index to flat-offset conversion. Too many
indices raise `ShapeMismatch` (per `ErrorHandler.hpp`, lines 76 and 79:
`A(0,0,0,0,0); // too many indices: throws ShapeMismatch`, and the
`ShapeMismatch` class documentation, which covers "an invalid number of
indices"), an index out of range raises `std::out_of_range`, and fewer
indices than the rank are allowed, the missing trailing indices defaulting
to 0 (`TensorBase` is not under `src/`). -/
def flatOffset (dims idx : List Nat) : Except Err Nat :=
  if dims.length < idx.length then .error .shapeMismatch
  else if inBounds dims idx then .ok (offset dims idx)
  else .error .outOfRange

/-- All multi-indices of a shape, enumerated in row-major order. -/
def allIndices : List Nat → List (List Nat)
  | [] => [[]]
  | d :: ds => (List.range d).flatMap (fun i => (allIndices ds).map (fun idx => i :: idx))

/-- Modelled from the spec: a tensor of arbitrary rank is a shape together
with a flat, contiguous, row-major element buffer (`TensorBase`, which
derives from `std::vector`, is not under `src/`). Components are modelled
as integers. -/
structure Tensor where
  dims : List Nat
  data : List Int
deriving DecidableEq

/-- The rank of a tensor: the number of axes. -/
def Tensor.rank (t : Tensor) : Nat := t.dims.length

/-- Well-formedness: the storage holds exactly `size` elements. -/
def WF (t : Tensor) : Prop := t.data.length = t.dims.prod

/-- Unchecked element read at a multi-index (used to state element laws). -/
def Tensor.get (t : Tensor) (idx : List Nat) : Int :=
  t.data.getD (offset t.dims idx) 0

/-- Modelled from the spec: checked element access `A(i,j,...)`, going
through `flatOffset` (`TensorBase` is not under `src/`). -/
def Tensor.atIdx (t : Tensor) (idx : List Nat) : Except Err Int :=
  (flatOffset t.dims idx).map (fun o => t.data.getD o 0)

/-- Modelled from the spec: `alloc(dims, fill)` on an arbitrary-rank tensor
replaces the shape and resizes the storage to `product(dims)` elements, all
equal to `fill` (`TensorBase` is not under `src/`). -/
def alloc (dims : List Nat) (fill : Int) : Tensor :=
  ⟨dims, List.replicate (shapeSize dims) fill⟩

/-- Modelled from the spec: the permutation test of `transpose` — the
argument must be a permutation of `{0, 1, ..., rank-1}`: as long as the
rank, and containing every axis number below the rank (equivalently: each
value in range and no duplicates) (`TensorBase` is not under `src/`). -/
def isPermOf (p : List Nat) (n : Nat) : Bool :=
  (p.length == n) && (List.range n).all (fun k => p.contains k)

/-- Selection of the entries of `idx` at the positions listed in `p`:
position `i` of `applyPerm p idx` holds entry `p[i]` of `idx`. -/
def applyPerm (p idx : List Nat) : List Nat :=
  p.map (fun k => idx.getD k 0)

/-- The inverse of a permutation of `{0, ..., n-1}`: `invPerm p` maps each
value `k` to the position at which `p` holds `k`. -/
def invPerm (p : List Nat) : List Nat :=
  (List.range p.length).map (fun k => p.indexOf k)

/-- Modelled from the spec: `transpose(perm)` returns a fresh tensor with
`newDims[i] = oldDims[perm[i]]` whose element at result multi-index `r`
equals the source element at the multi-index `s` with `s[perm[i]] = r[i]`;
a `perm` that is not a permutation of `{0,...,rank-1}` raises
`ShapeMismatch` (per the documented example of `ErrorHandler.hpp`, line 111:
`F.transpose({1,3,2})` raises `ShapeMismatch`, "Reshape must be a
permutation of (0,1,...,N-1)") (`TensorBase` is not under `src/`). -/
def Tensor.transpose (t : Tensor) (p : List Nat) : Except Err Tensor :=
  if isPermOf p t.dims.length then
    .ok ⟨applyPerm p t.dims,
      (allIndices (applyPerm p t.dims)).map (fun r => t.get (applyPerm (invPerm p) r))⟩
  else .error .shapeMismatch

/-- The number of positions below `a` that are not contraction axes: the
position of axis `a` among the free axes. -/
def cntFreeBefore (axes : List Nat) (a : Nat) : Nat :=
  ((List.range a).filter (fun b => !(axes.contains b))).length

/-- The free (non-contracted) axes of a rank-`n` tensor, in their original
relative order. -/
def freeAxes (n : Nat) (axes : List Nat) : List Nat :=
  (List.range n).filter (fun a => !(axes.contains a))

/-- The sizes of the free axes, in their original relative order. -/
def freeDims (dims : List Nat) (axes : List Nat) : List Nat :=
  (freeAxes dims.length axes).map (fun a => dims.getD a 0)

/-- The sizes of the contracted axes, in the order the axes are listed. -/
def contractedDims (dims : List Nat) (axes : List Nat) : List Nat :=
  axes.map (fun a => dims.getD a 0)

/-- Reassembly of a full rank-`n` multi-index from the values `c` of the
contraction axes `axes` (value `c[k]` at axis `axes[k]`) and the values
`free` of the remaining axes, in their original relative order. -/
def mergeIdx (n : Nat) (axes free c : List Nat) : List Nat :=
  (List.range n).map (fun a =>
    if axes.contains a then c.getD (axes.indexOf a) 0
    else free.getD (cntFreeBefore axes a) 0)

/-- Modelled from the spec: the generalized contraction `dot(other,
selfAxes, otherAxes)`. The two axis lists must have equal length
(`ShapeMismatch` otherwise, per the documented example of
`ErrorHandler.hpp`, line 113), every listed axis must be a valid axis of its
tensor (`std::out_of_range` otherwise), and the paired contracted axes must
have equal sizes (`ShapeMismatch` otherwise). The result's shape is the
concatenation of both operands' free axis sizes in their original relative
order, and its element at a multi-index `(f_self..., f_other...)` is the sum
over all combinations `c` of contracted index values of
`self[f_self..., c...] * other[f_other..., c...]` (`TensorBase` is not under
`src/`). -/
def Tensor.dot (t u : Tensor) (ax bx : List Nat) : Except Err Tensor :=
  if ax.length ≠ bx.length then .error .shapeMismatch
  else if !(ax.all (fun a => decide (a < t.dims.length))
      && bx.all (fun b => decide (b < u.dims.length))) then .error .outOfRange
  else if contractedDims t.dims ax ≠ contractedDims u.dims bx then .error .shapeMismatch
  else .ok ⟨freeDims t.dims ax ++ freeDims u.dims bx,
    (allIndices (freeDims t.dims ax ++ freeDims u.dims bx)).map (fun fidx =>
      ((allIndices (contractedDims t.dims ax)).map (fun c =>
        t.get (mergeIdx t.dims.length ax (fidx.take (freeDims t.dims ax).length) c)
          * u.get (mergeIdx u.dims.length bx (fidx.drop (freeDims t.dims ax).length) c))).sum)⟩

/-- Modelled from the spec: the per-axis starting offset of the destination
region of `assign` — the axes listed in `destAxes` start at the
corresponding entry of `destOffsets` (missing trailing offsets defaulting to
0, per the partial-indexing rule), every other axis starts at 0
(`TensorBase` is not under `src/`). -/
def axisOffset (axes offs : List Nat) (a : Nat) : Nat :=
  if axes.contains a then offs.getD (axes.indexOf a) 0 else 0

/-- The starting offsets of the destination region, one per axis. -/
def fullOffsets (n : Nat) (axes offs : List Nat) : List Nat :=
  (List.range n).map (axisOffset axes offs)

/-- Modelled from the spec: the extents of the destination region of
`assign`, one per axis — each axis runs from its starting offset to the end
of the axis. This extent rule reproduces the two decidable documented
`assign` outcomes of `ErrorHandler.hpp` (lines 106 and 107) (`TensorBase`
is not under `src/`). -/
def destExtents (dims axes offs : List Nat) : List Nat :=
  List.zipWith (fun d o => d - o) dims (fullOffsets dims.length axes offs)

/-- Modelled from the spec: every supplied destination offset must be a
valid coordinate along the axis it addresses (`TensorBase` is not under
`src/`). -/
def offsetsOK (dims axes offs : List Nat) : Bool :=
  (List.range offs.length).all
    (fun p => decide (offs.getD p 0 < dims.getD (axes.getD p 0) 0))

/-- Sequential overwrite of the storage cells at the listed flat positions
with the listed values (pairs beyond the shorter of the two lists are
ignored). -/
def writeCells (data : List Int) (positions : List Nat) (vals : List Int) : List Int :=
  (List.zip positions vals).foldl (fun d pv => d.set pv.1 pv.2) data

/-- Modelled from the spec: `assign(source, destAxes, destOffsets)`
overwrites the destination region of `self` with all elements of `source`,
both sides visited in row-major order. An axis number that is not a valid
axis of `self`, or an offset that is not a valid coordinate, raises
`std::out_of_range`; a destination region whose element count differs from
`source`'s element count raises `ShapeMismatch` — an element-count
comparison, not a per-axis shape comparison (`TensorBase` is not under
`src/`). -/
def Tensor.assign (t src : Tensor) (axes offs : List Nat) : Except Err Tensor :=
  if !(axes.all (fun a => decide (a < t.dims.length))) then .error .outOfRange
  else if !(offsetsOK t.dims axes offs) then .error .outOfRange
  else if shapeSize src.dims ≠ shapeSize (destExtents t.dims axes offs) then
    .error .shapeMismatch
  else .ok ⟨t.dims,
    writeCells t.data
      ((allIndices (destExtents t.dims axes offs)).map (fun l =>
        offset t.dims (List.zipWith (· + ·) (fullOffsets t.dims.length axes offs) l)))
      src.data⟩

/-- Modelled from the spec: the propagation policy — a failing operation
signals at the point of violation and leaves the receiving instance
unmodified. `mutate` gives the post-state of a mutating member-function
call: on success the new value, on failure the receiver exactly as it was,
together with the signalled error. -/
def mutate {σ : Type} (t : σ) (r : Except Err σ) : σ × Option Err :=
  match r with
  | .ok t2 => (t2, none)
  | .error e => (t, some e)

/-- Modelled from the spec: `TensorDerived<T,N>` — a tensor over component
type `α` carrying an optional fixed rank (`N = -1` gives arbitrary rank,
any other `N` locks the rank to `N`) (`TensorDerived.hpp` is not under
`src/`). -/
structure TensorD (α : Type) where
  dims : List Nat
  data : List α
  fixedRank : Option Nat

/-- The rank of a derived tensor. -/
def TensorD.rank {α : Type} (t : TensorD α) : Nat := t.dims.length

/-- Modelled from the spec: `alloc` on a derived tensor — `RankMismatch` if
a fixed-rank tensor receives a dimension count different from its fixed
rank (per `ErrorHandler.hpp`, line 103: `E.alloc({2,3,5,7})` raises
`RankMismatch` because `E` has a fixed rank); otherwise the shape is
replaced and the storage resized and filled (`TensorDerived.hpp` is not
under `src/`). -/
def TensorD.alloc {α : Type} (t : TensorD α) (dims : List Nat) (fill : α) :
    Except Err (TensorD α) :=
  match t.fixedRank with
  | some n =>
    if dims.length = n then .ok ⟨dims, List.replicate (shapeSize dims) fill, some n⟩
    else .error .rankMismatch
  | none => .ok ⟨dims, List.replicate (shapeSize dims) fill, none⟩

/-- Modelled from the spec: assignment between derived tensors, possibly of
different component types — `RankMismatch` if the destination has a fixed
rank different from the source's rank (per `ErrorHandler.hpp`, lines 98 and
99: `E = A` raises `RankMismatch`, `E = F` succeeds across component
types); otherwise the shape is taken over and every element is converted
with the implicit per-element numeric conversion `cv`
(`TensorDerived.hpp` is not under `src/`). -/
def TensorD.assignFrom {α β : Type} (t : TensorD β) (src : TensorD α)
    (cv : α → β) : Except Err (TensorD β) :=
  match t.fixedRank with
  | some n =>
    if src.rank = n then .ok ⟨src.dims, src.data.map cv, some n⟩
    else .error .rankMismatch
  | none => .ok ⟨src.dims, src.data.map cv, none⟩

/-! ## Basic lemmas about shapes, strides and offsets -/

theorem shapeSize_eq_prod (dims : List Nat) : shapeSize dims = dims.prod := by
  induction dims with
  | nil => rfl
  | cons d ds ih => simp [shapeSize, ih, List.prod_cons]

theorem strides_length (dims : List Nat) : (strides dims).length = dims.length := by
  induction dims with
  | nil => rfl
  | cons d ds ih => simp [strides, ih]

theorem strides_getD (dims : List Nat) (i : Nat) (h : i < dims.length) :
    (strides dims).getD i 0 = (dims.drop (i + 1)).prod := by
  induction dims generalizing i with
  | nil => simp at h
  | cons d ds ih =>
    cases i with
    | zero => simp [strides]
    | succ j =>
      simp only [strides, List.getD_cons_succ, List.drop_succ_cons]
      exact ih j (by simpa using h)

theorem zipWith_mul_sum_eq (xs ys : List Nat) (h : xs.length ≤ ys.length) :
    (List.zipWith (fun i s => i * s) xs ys).sum
      = ((List.range xs.length).map (fun i => xs.getD i 0 * ys.getD i 0)).sum := by
  induction xs generalizing ys with
  | nil => simp
  | cons x xs ih =>
    cases ys with
    | nil => simp at h
    | cons y ys =>
      simp only [List.zipWith_cons_cons, List.sum_cons, List.length_cons,
        List.range_succ_eq_map, List.map_cons, List.getD_cons_zero, List.map_map]
      have : ((List.range xs.length).map
          ((fun i => (x :: xs).getD i 0 * (y :: ys).getD i 0) ∘ Nat.succ))
          = (List.range xs.length).map (fun i => xs.getD i 0 * ys.getD i 0) := by
        apply List.map_congr_left
        intro i _
        simp [Function.comp]
      rw [this, ih ys (by simpa using h)]

/-! ## Row-major enumeration of multi-indices -/

theorem offset_nil_left (idx : List Nat) : offset [] idx = 0 := by
  simp [offset, strides]

theorem offset_cons (d : Nat) (ds : List Nat) (i : Nat) (is : List Nat) :
    offset (d :: ds) (i :: is) = i * ds.prod + offset ds is := by
  simp [offset, strides]

theorem getD_map_lt {α β : Type} (l : List α) (f : α → β) (n : Nat)
    (h : n < l.length) (d : β) (d0 : α) :
    (l.map f).getD n d = f (l.getD n d0) := by
  rw [List.getD_eq_getElem _ _ (by simpa using h), List.getElem_map,
    List.getD_eq_getElem _ _ h]

theorem length_flatMap_const {α β : Type} (l : List α) (g : α → List β) (B : Nat)
    (hB : ∀ a ∈ l, (g a).length = B) : (l.flatMap g).length = l.length * B := by
  induction l with
  | nil => simp
  | cons x xs ih =>
    simp only [List.flatMap_cons, List.length_append, hB x (by simp), List.length_cons]
    rw [ih (fun a ha => hB a (by simp [ha])), Nat.succ_mul]
    omega

theorem getD_flatMap {α β : Type} (l : List α) (g : α → List β) (B : Nat)
    (hB : ∀ a ∈ l, (g a).length = B) (i o : Nat) (hi : i < l.length) (ho : o < B)
    (d : β) (a0 : α) :
    (l.flatMap g).getD (i * B + o) d = (g (l.getD i a0)).getD o d := by
  induction l generalizing i with
  | nil => simp at hi
  | cons x xs ih =>
    rw [List.flatMap_cons]
    cases i with
    | zero =>
      simp only [Nat.zero_mul, Nat.zero_add, List.getD_cons_zero]
      exact List.getD_append _ _ d o (by rw [hB x (by simp)]; exact ho)
    | succ j =>
      have hlen : (g x).length = B := hB x (by simp)
      have hge : (g x).length ≤ (j + 1) * B + o := by
        rw [hlen, Nat.succ_mul]; omega
      rw [List.getD_append_right _ _ _ _ hge]
      have heq : (j + 1) * B + o - (g x).length = j * B + o := by
        rw [hlen, Nat.succ_mul]; omega
      rw [heq, List.getD_cons_succ]
      exact ih (fun a ha => hB a (by simp [ha])) j (by simpa using hi)

theorem allIndices_length (dims : List Nat) : (allIndices dims).length = dims.prod := by
  induction dims with
  | nil => rfl
  | cons d ds ih =>
    show ((List.range d).flatMap _).length = _
    rw [length_flatMap_const _ _ ds.prod
      (fun a _ => by rw [List.length_map, ih]), List.length_range, List.prod_cons]

theorem offset_lt {dims idx : List Nat} (h : List.Forall₂ (· < ·) idx dims) :
    offset dims idx < dims.prod := by
  induction h with
  | nil => simp [offset]
  | @cons i d is ds hid _ ih =>
    rw [offset_cons, List.prod_cons]
    calc i * ds.prod + offset ds is < i * ds.prod + ds.prod := Nat.add_lt_add_left ih _
      _ = (i + 1) * ds.prod := by rw [Nat.succ_mul]
      _ ≤ d * ds.prod := Nat.mul_le_mul_right _ hid

theorem allIndices_getD {dims idx : List Nat} (h : List.Forall₂ (· < ·) idx dims) :
    (allIndices dims).getD (offset dims idx) [] = idx := by
  induction h with
  | nil => rfl
  | @cons i d is ds hid hrest ih =>
    rw [offset_cons]
    show ((List.range d).flatMap _).getD _ [] = i :: is
    rw [getD_flatMap _ _ ds.prod (fun a _ => by rw [List.length_map, allIndices_length])
      i (offset ds is) (by simpa using hid) (offset_lt hrest) [] 0]
    have hri : (List.range d).getD i 0 = i := by
      rw [List.getD_eq_getElem _ _ (by simpa using hid)]; simp
    rw [hri, getD_map_lt _ _ _ (by rw [allIndices_length]; exact offset_lt hrest) [] [],
      ih]

theorem offset_allIndices {dims : List Nat} (k : Nat) (hk : k < dims.prod) :
    offset dims ((allIndices dims).getD k []) = k := by
  induction dims generalizing k with
  | nil =>
    have : k = 0 := by simpa using hk
    subst this; rfl
  | cons d ds ih =>
    have hk' : k < d * ds.prod := by simpa [List.prod_cons] using hk
    have hBpos : 0 < ds.prod := by
      rcases Nat.eq_zero_or_pos ds.prod with h0 | h0
      · rw [h0, Nat.mul_zero] at hk'; omega
      · exact h0
    have hi : k / ds.prod < d := (Nat.div_lt_iff_lt_mul hBpos).mpr hk'
    have ho : k % ds.prod < ds.prod := Nat.mod_lt _ hBpos
    show offset (d :: ds) (((List.range d).flatMap _).getD k []) = k
    conv_lhs =>
      rw [show k = (k / ds.prod) * ds.prod + k % ds.prod by
        rw [Nat.mul_comm, Nat.div_add_mod]]
    rw [getD_flatMap _ _ ds.prod (fun a _ => by rw [List.length_map, allIndices_length])
      (k / ds.prod) (k % ds.prod) (by simpa using hi) ho [] 0]
    rw [getD_map_lt _ _ _ (by rw [allIndices_length]; exact ho) [] []]
    rw [offset_cons, ih (k % ds.prod) ho]
    have hri : (List.range d).getD (k / ds.prod) 0 = k / ds.prod := by
      rw [List.getD_eq_getElem _ _ (by simpa using hi)]; simp
    rw [hri, Nat.mul_comm, Nat.div_add_mod]

theorem allIndices_mem {dims idx : List Nat} (h : idx ∈ allIndices dims) :
    List.Forall₂ (· < ·) idx dims := by
  induction dims generalizing idx with
  | nil =>
    have : idx = [] := by simpa [allIndices] using h
    subst this; exact .nil
  | cons d ds ih =>
    simp only [allIndices, List.mem_flatMap, List.mem_map, List.mem_range] at h
    obtain ⟨i, hi, idx', hidx', rfl⟩ := h
    exact .cons hi (ih hidx')

theorem map_allIndices_getD {α : Type} {dims idx : List Nat} (f : List Nat → α)
    (d0 : α) (h : List.Forall₂ (· < ·) idx dims) :
    ((allIndices dims).map f).getD (offset dims idx) d0 = f idx := by
  rw [getD_map_lt _ _ _ (by rw [allIndices_length]; exact offset_lt h) d0 [], allIndices_getD h]

theorem map_get_allIndices (t : Tensor) (hw : WF t) :
    (allIndices t.dims).map t.get = t.data := by
  apply List.ext_getElem
  · rw [List.length_map, allIndices_length]; exact hw.symm
  · intro k h1 h2
    rw [List.getElem_map]
    have hk : k < t.dims.prod := by rwa [List.length_map, allIndices_length] at h1
    have h1' : k < (allIndices t.dims).length := by rwa [List.length_map] at h1
    show t.get ((allIndices t.dims)[k]) = t.data[k]
    unfold Tensor.get
    rw [← List.getD_eq_getElem (allIndices t.dims) [] h1', offset_allIndices k hk,
      List.getD_eq_getElem _ _ h2]

end TensorSpec

namespace TensorSpec

/-- C5: for every shape, the derived size is the product of all dimensions
(1 for an empty shape), `strides[i]` is the product of the dimensions after
axis `i` (row-major, last axis fastest-varying), and for every tuple of
supplied indices that is no longer than the rank, the flat offset is the sum
over the supplied indices of `index[i] * strides[i]`. -/
theorem size_strides_offset_law :
    shapeSize [] = 1
    ∧ (∀ dims : List Nat, shapeSize dims = dims.prod)
    ∧ (∀ dims : List Nat, (strides dims).length = dims.length)
    ∧ (∀ (dims : List Nat) (i : Nat), i < dims.length →
        (strides dims).getD i 0 = (dims.drop (i + 1)).prod)
    ∧ (∀ dims fill, (alloc dims fill).data.length = dims.prod)
    ∧ (∀ dims idx : List Nat, idx.length ≤ dims.length →
        offset dims idx
          = ((List.range idx.length).map
              (fun i => idx.getD i 0 * (strides dims).getD i 0)).sum) := by
  refine ⟨rfl, shapeSize_eq_prod, strides_length, strides_getD, ?_, ?_⟩
  · intro dims fill
    simp [alloc, shapeSize_eq_prod]
  · intro dims idx h
    have h' : idx.length ≤ (strides dims).length := by rw [strides_length]; exact h
    exact zipWith_mul_sum_eq idx (strides dims) h'

/-- C5 witness: the law evaluated on the concrete shape `{2,3,5}` with the
index tuple `(1,2)`. -/
theorem size_strides_offset_law_witness :
    offset [2, 3, 5] [1, 2]
      = ((List.range ([1, 2] : List Nat).length).map
          (fun i => ([1, 2] : List Nat).getD i 0 * (strides [2, 3, 5]).getD i 0)).sum :=
  size_strides_offset_law.2.2.2.2.2 [2, 3, 5] [1, 2] (by decide)

/-- C2 counterexample: on a tensor of shape `{2,3,5,7}` (the documented
example of `ErrorHandler.hpp`), element access with five indices fails with
`ShapeMismatch`, not with `RankMismatch`. -/
theorem too_many_indices_not_rank_mismatch :
    flatOffset [2, 3, 5, 7] [0, 0, 0, 0, 0] = .error .shapeMismatch
      ∧ Err.shapeMismatch ≠ Err.rankMismatch := by
  constructor
  · rfl
  · decide

/-- C2 (amended): for every tensor, element access called with more indices
than the tensor's rank fails with `ShapeMismatch` (the error kind documented
in `ErrorHandler.hpp` for an invalid number of indices). -/
theorem too_many_indices_shape_mismatch (t : Tensor) (idx : List Nat)
    (h : t.rank < idx.length) :
    t.atIdx idx = .error .shapeMismatch := by
  unfold Tensor.atIdx flatOffset
  rw [if_pos (show t.dims.length < idx.length from h)]
  rfl

theorem zipWith_mul_replicate_zero_sum (ys : List Nat) (k : Nat) :
    (List.zipWith (fun i s => i * s) (List.replicate k 0) ys).sum = 0 := by
  induction k generalizing ys with
  | zero => simp
  | succ m ih =>
    cases ys with
    | nil => simp
    | cons y ys => simpa [List.replicate_succ] using ih ys

theorem zipWith_mul_append_zeros (xs ys : List Nat) (k : Nat) :
    (List.zipWith (fun i s => i * s) (xs ++ List.replicate k 0) ys).sum
      = (List.zipWith (fun i s => i * s) xs ys).sum := by
  induction xs generalizing ys with
  | nil => simpa using zipWith_mul_replicate_zero_sum ys k
  | cons x xs ih =>
    cases ys with
    | nil => simp
    | cons y ys => simpa using ih ys

theorem offset_append_zeros (dims idx : List Nat) (k : Nat) :
    offset dims (idx ++ List.replicate k 0) = offset dims idx :=
  zipWith_mul_append_zeros idx (strides dims) k

theorem inBounds_replicate_zero (dims : List Nat) (k : Nat)
    (hk : k ≤ dims.length) (hpos : ∀ d ∈ dims, 0 < d) :
    inBounds dims (List.replicate k 0) = true := by
  induction k generalizing dims with
  | zero => cases dims <;> rfl
  | succ m ih =>
    cases dims with
    | nil => simp at hk
    | cons d ds =>
      simp only [List.replicate_succ, inBounds, Bool.and_eq_true, decide_eq_true_eq]
      exact ⟨hpos d (by simp), ih ds (by simpa using hk) (fun x hx => hpos x (by simp [hx]))⟩

theorem inBounds_append_zeros (dims idx : List Nat) (k : Nat)
    (hlen : idx.length + k ≤ dims.length)
    (hb : inBounds dims idx = true)
    (hpos : ∀ d ∈ dims.drop idx.length, 0 < d) :
    inBounds dims (idx ++ List.replicate k 0) = true := by
  induction idx generalizing dims with
  | nil =>
    simpa using inBounds_replicate_zero dims k (by simpa using hlen) (by simpa using hpos)
  | cons i is ih =>
    cases dims with
    | nil => simp at hlen
    | cons d ds =>
      simp only [inBounds, Bool.and_eq_true, decide_eq_true_eq] at hb
      simp only [List.cons_append, inBounds, Bool.and_eq_true, decide_eq_true_eq]
      refine ⟨hb.1, ih ds ?_ hb.2 (by simpa using hpos)⟩
      simpa [Nat.succ_add] using hlen

/-- C4: for every tensor, element access with fewer indices than the rank
defaults the missing trailing indices to 0: the flat offset is unchanged by
appending trailing zeros, and on a tensor whose unaddressed trailing
dimensions are positive, partial access returns the same element as the
zero-padded full access (e.g. `at(1,2)` equals `at(1,2,0,0)` on shape
`{2,3,5,7}`). -/
theorem trailing_indices_default_zero :
    (∀ (dims idx : List Nat) (k : Nat),
      offset dims (idx ++ List.replicate k 0) = offset dims idx)
    ∧ (∀ (t : Tensor) (idx : List Nat) (k : Nat),
        idx.length + k ≤ t.rank →
        inBounds t.dims idx = true →
        (∀ d ∈ t.dims.drop idx.length, 0 < d) →
        t.atIdx (idx ++ List.replicate k 0) = t.atIdx idx
          ∧ t.atIdx idx = .ok (t.get idx)) := by
  refine ⟨offset_append_zeros, ?_⟩
  intro t idx k hlen hb hpos
  have hb' : inBounds t.dims (idx ++ List.replicate k 0) = true :=
    inBounds_append_zeros t.dims idx k hlen hb hpos
  have hlen1 : ¬ t.dims.length < idx.length := by
    simp only [Tensor.rank] at hlen; omega
  have hlen2 : ¬ t.dims.length < (idx ++ List.replicate k 0).length := by
    simp only [Tensor.rank] at hlen
    simp only [List.length_append, List.length_replicate]
    omega
  constructor
  · unfold Tensor.atIdx flatOffset
    rw [if_neg hlen1, if_neg hlen2, if_pos hb, if_pos hb', offset_append_zeros]
  · unfold Tensor.atIdx flatOffset
    rw [if_neg hlen1, if_pos hb]
    rfl

/-- C4 witness: on a tensor allocated with dims `{2,3,5,7}`, `at(1,2)`
returns the same element as `at(1,2,0,0)`. -/
theorem trailing_indices_default_zero_witness :
    (alloc [2, 3, 5, 7] 1).atIdx ([1, 2] ++ List.replicate 2 0)
        = (alloc [2, 3, 5, 7] 1).atIdx [1, 2]
      ∧ (alloc [2, 3, 5, 7] 1).atIdx [1, 2] = .ok ((alloc [2, 3, 5, 7] 1).get [1, 2]) :=
  trailing_indices_default_zero.2 (alloc [2, 3, 5, 7] 1) [1, 2] 2
    (by decide) (by decide) (by decide)

/-- C2 witness: on a tensor allocated with shape `{2,3,5,7}`, access with
five indices fails with `ShapeMismatch`. -/
theorem too_many_indices_shape_mismatch_witness :
    (alloc [2, 3, 5, 7] 1).atIdx [0, 0, 0, 0, 0] = .error .shapeMismatch :=
  too_many_indices_shape_mismatch (alloc [2, 3, 5, 7] 1) [0, 0, 0, 0, 0] (by decide)

end TensorSpec

namespace TensorSpec

/-! ## Permutation lemmas -/

theorem contains_eq_decide_mem (l : List Nat) (a : Nat) :
    l.contains a = decide (a ∈ l) :=
  List.elem_eq_mem a l

theorem perm_of_length_mem {p : List Nat} {n : Nat}
    (hlen : p.length = n) (hmem : ∀ k, k < n → k ∈ p) :
    p.Perm (List.range n) := by
  have hsub : List.range n ⊆ p := fun k hk => hmem k (List.mem_range.mp hk)
  have hsp : List.Subperm (List.range n) p :=
    List.subperm_of_subset (List.nodup_range n) hsub
  exact (hsp.perm_of_length_le (by rw [hlen, List.length_range])).symm

theorem isPermOf_iff_perm (p : List Nat) (n : Nat) :
    isPermOf p n = true ↔ p.Perm (List.range n) := by
  constructor
  · intro h
    simp only [isPermOf, Bool.and_eq_true, beq_iff_eq, List.all_eq_true] at h
    obtain ⟨hlen, hmem⟩ := h
    refine perm_of_length_mem hlen (fun k hk => ?_)
    have hk' := hmem k (List.mem_range.mpr hk)
    rw [contains_eq_decide_mem] at hk'
    exact of_decide_eq_true hk'
  · intro h
    simp only [isPermOf, Bool.and_eq_true, beq_iff_eq, List.all_eq_true]
    refine ⟨by rw [h.length_eq, List.length_range], fun k hk => ?_⟩
    rw [contains_eq_decide_mem]
    exact decide_eq_true (h.mem_iff.mpr hk)

theorem applyPerm_length (p idx : List Nat) : (applyPerm p idx).length = p.length := by
  simp [applyPerm]

theorem applyPerm_getD (p idx : List Nat) (j : Nat) (h : j < p.length) :
    (applyPerm p idx).getD j 0 = idx.getD (p.getD j 0) 0 :=
  getD_map_lt p _ j h 0 0

theorem invPerm_length (p : List Nat) : (invPerm p).length = p.length := by
  simp [invPerm]

theorem invPerm_getD (p : List Nat) (j : Nat) (h : j < p.length) :
    (invPerm p).getD j 0 = p.indexOf j := by
  unfold invPerm
  rw [getD_map_lt _ _ j (by simpa using h) 0 0]
  congr 1
  rw [List.getD_eq_getElem _ _ (by simpa using h)]
  simp

theorem applyPerm_invPerm_applyPerm {p : List Nat} {n : Nat}
    (hp : p.Perm (List.range n)) (s : List Nat) (hs : s.length = n) :
    applyPerm (invPerm p) (applyPerm p s) = s := by
  have hplen : p.length = n := by rw [hp.length_eq, List.length_range]
  apply List.ext_getElem
  · rw [applyPerm_length, invPerm_length, hplen, hs]
  · intro j h1 h2
    have hj : j < n := by rwa [hs] at h2
    rw [← List.getD_eq_getElem _ 0 h1, ← List.getD_eq_getElem _ 0 h2]
    rw [applyPerm_getD _ _ j (by rw [invPerm_length, hplen]; exact hj)]
    rw [invPerm_getD _ j (by rw [hplen]; exact hj)]
    have hjmem : j ∈ p := hp.mem_iff.mpr (List.mem_range.mpr hj)
    have hidx : p.indexOf j < p.length := List.indexOf_lt_length.mpr hjmem
    rw [applyPerm_getD _ _ _ hidx]
    congr 1
    rw [List.getD_eq_getElem _ _ hidx]
    exact List.getElem_indexOf hidx

theorem invPerm_perm {p : List Nat} {n : Nat} (hp : p.Perm (List.range n)) :
    (invPerm p).Perm (List.range n) := by
  have hplen : p.length = n := by rw [hp.length_eq, List.length_range]
  have hnodup : p.Nodup := hp.symm.nodup (List.nodup_range n)
  refine perm_of_length_mem (by rw [invPerm_length, hplen]) (fun k hk => ?_)
  have hkp : k < p.length := by rw [hplen]; exact hk
  have hval : p[k] ∈ List.range p.length := by
    rw [List.mem_range, hplen]
    exact List.mem_range.mp (hp.mem_iff.mp (List.getElem_mem hkp))
  exact List.mem_map.mpr ⟨p[k], hval, List.indexOf_getElem hnodup k hkp⟩

theorem invPerm_invPerm {p : List Nat} {n : Nat} (hp : p.Perm (List.range n)) :
    invPerm (invPerm p) = p := by
  have hplen : p.length = n := by rw [hp.length_eq, List.length_range]
  have hnodup : p.Nodup := hp.symm.nodup (List.nodup_range n)
  have hq := invPerm_perm hp
  have hqlen : (invPerm p).length = n := by rw [invPerm_length, hplen]
  have hqnodup : (invPerm p).Nodup := hq.symm.nodup (List.nodup_range n)
  apply List.ext_getElem
  · rw [invPerm_length, hqlen, hplen]
  · intro i h1 h2
    have hi : i < n := by rwa [hplen] at h2
    rw [← List.getD_eq_getElem _ 0 h1, ← List.getD_eq_getElem _ 0 h2]
    rw [invPerm_getD (invPerm p) i (by rw [hqlen]; exact hi)]
    rw [List.getD_eq_getElem _ _ h2]
    have hpi : p[i] < (invPerm p).length := by
      rw [hqlen]
      exact List.mem_range.mp (hp.mem_iff.mp (List.getElem_mem h2))
    have hmid : (invPerm p)[p[i]] = i := by
      rw [← List.getD_eq_getElem _ 0 hpi]
      rw [invPerm_getD p _ (by rw [hplen, ← hqlen]; exact hpi)]
      exact List.indexOf_getElem hnodup i h2
    have := List.indexOf_getElem hqnodup (p[i]) hpi
    rw [hmid] at this
    exact this

theorem applyPerm_forall₂ {p idx dims : List Nat}
    (hlen : idx.length = dims.length)
    (hmem : ∀ k ∈ p, k < dims.length)
    (h : List.Forall₂ (· < ·) idx dims) :
    List.Forall₂ (· < ·) (applyPerm p idx) (applyPerm p dims) := by
  rw [List.forall₂_iff_get]
  refine ⟨by rw [applyPerm_length, applyPerm_length], fun j h1 h2 => ?_⟩
  rw [applyPerm_length] at h1 h2
  simp only [List.get_eq_getElem]
  rw [← List.getD_eq_getElem _ 0, ← List.getD_eq_getElem _ 0]
  rw [applyPerm_getD _ _ j h1, applyPerm_getD _ _ j h2]
  have hkmem : p.getD j 0 ∈ p := by
    rw [List.getD_eq_getElem _ _ h1]
    exact List.getElem_mem h1
  have hk : p.getD j 0 < dims.length := hmem _ hkmem
  have hk' : p.getD j 0 < idx.length := by rw [hlen]; exact hk
  rw [List.getD_eq_getElem _ _ hk, List.getD_eq_getElem _ _ hk']
  have := (List.forall₂_iff_get.mp h).2 (p.getD j 0) hk' hk
  simpa using this

end TensorSpec

namespace TensorSpec

/-- C7: `transpose(perm)` with a `perm` that is not a permutation of
`{0,...,rank-1}` — wrong length, an out-of-range value, or a duplicate —
fails with `ShapeMismatch` (and hence not with an out-of-range error), even
when an entry exceeds `rank-1`, e.g. `{1,3,2}` on a rank-3 tensor. -/
theorem transpose_nonperm (t : Tensor) (p : List Nat)
    (h : p.length ≠ t.rank ∨ (∃ a ∈ p, t.rank ≤ a) ∨ ¬ p.Nodup) :
    t.transpose p = .error .shapeMismatch := by
  have hnot : ¬ (isPermOf p t.dims.length = true) := by
    intro hyes
    have hp := (isPermOf_iff_perm p t.dims.length).mp hyes
    have hlen : p.length = t.dims.length := by rw [hp.length_eq, List.length_range]
    rcases h with h | ⟨a, ha, hge⟩ | hnd
    · exact h hlen
    · have : a < t.dims.length := List.mem_range.mp (hp.mem_iff.mp ha)
      exact absurd this (by rw [Tensor.rank] at hge; omega)
    · exact hnd (hp.symm.nodup (List.nodup_range t.dims.length))
  unfold Tensor.transpose
  rw [if_neg hnot]

/-- C7 witness: on a rank-3 tensor, `transpose({1,3,2})` fails with
`ShapeMismatch`. -/
theorem transpose_nonperm_witness :
    (Tensor.mk [3, 5, 7] (List.replicate 105 0)).transpose [1, 3, 2]
      = .error .shapeMismatch :=
  transpose_nonperm (Tensor.mk [3, 5, 7] (List.replicate 105 0)) [1, 3, 2]
    (Or.inr (Or.inl ⟨3, by decide, by decide⟩))

/-- C6: for every well-formed tensor `t` and valid permutation `p` of
`{0,...,rank-1}`, `t.transpose(p)` produces a tensor with
`newDims[i] = oldDims[p[i]]`, and `t.transpose(p).transpose(inverse(p))`
reproduces `t`'s shape and element values exactly. -/
theorem transpose_eq_ok (t : Tensor) (p : List Nat)
    (h : isPermOf p t.dims.length = true) :
    t.transpose p = .ok ⟨applyPerm p t.dims,
      (allIndices (applyPerm p t.dims)).map (fun r => t.get (applyPerm (invPerm p) r))⟩ := by
  unfold Tensor.transpose
  rw [if_pos h]

theorem transpose_roundtrip (t : Tensor) (p : List Nat) (hw : WF t)
    (hp : isPermOf p t.rank = true) :
    ∃ t1 t2, t.transpose p = .ok t1 ∧ t1.transpose (invPerm p) = .ok t2
      ∧ t1.dims = applyPerm p t.dims ∧ t2.dims = t.dims ∧ t2.data = t.data := by
  have hpc : isPermOf p t.dims.length = true := hp
  have hp' : p.Perm (List.range t.dims.length) := (isPermOf_iff_perm p _).mp hpc
  have hplen : p.length = t.dims.length := by rw [hp'.length_eq, List.length_range]
  have hc2 : isPermOf (invPerm p) (applyPerm p t.dims).length = true := by
    rw [applyPerm_length, hplen]
    exact (isPermOf_iff_perm _ _).mpr (invPerm_perm hp')
  refine ⟨_, _, transpose_eq_ok t p hpc, transpose_eq_ok _ (invPerm p) hc2, rfl, ?_, ?_⟩
  · show applyPerm (invPerm p) (applyPerm p t.dims) = t.dims
    exact applyPerm_invPerm_applyPerm hp' t.dims rfl
  · show (allIndices (applyPerm (invPerm p) (applyPerm p t.dims))).map _ = t.data
    rw [applyPerm_invPerm_applyPerm hp' t.dims rfl, invPerm_invPerm hp']
    rw [← map_get_allIndices t hw]
    apply List.map_congr_left
    intro r hr
    have hrv : List.Forall₂ (· < ·) r t.dims := allIndices_mem hr
    have hrlen : r.length = t.dims.length := hrv.length_eq
    have hv1 : List.Forall₂ (· < ·) (applyPerm p r) (applyPerm p t.dims) :=
      applyPerm_forall₂ hrlen
        (fun k hk => List.mem_range.mp (hp'.mem_iff.mp hk)) hrv
    show ((allIndices (applyPerm p t.dims)).map
        (fun r' => t.get (applyPerm (invPerm p) r'))).getD
          (offset (applyPerm p t.dims) (applyPerm p r)) 0 = _
    rw [map_allIndices_getD _ 0 hv1, applyPerm_invPerm_applyPerm hp' r hrlen]

/-- C6 witness: the round trip evaluated on the concrete tensor of shape
`{2,2}` with data `(1,2,3,4)` and the swap permutation `{1,0}`. -/
theorem transpose_roundtrip_witness :
    ∃ t1 t2, (Tensor.mk [2, 2] [1, 2, 3, 4]).transpose [1, 0] = .ok t1
      ∧ t1.transpose (invPerm [1, 0]) = .ok t2
      ∧ t1.dims = applyPerm [1, 0] (Tensor.mk [2, 2] [1, 2, 3, 4]).dims
      ∧ t2.dims = (Tensor.mk [2, 2] [1, 2, 3, 4]).dims
      ∧ t2.data = (Tensor.mk [2, 2] [1, 2, 3, 4]).data :=
  transpose_roundtrip (Tensor.mk [2, 2] [1, 2, 3, 4]) [1, 0]
    (by unfold WF; decide) (by decide)

end TensorSpec

namespace TensorSpec

/-! ## Lemmas for the contraction engine -/

theorem forall₂_lt_getD {xs ys : List Nat} (h : List.Forall₂ (· < ·) xs ys)
    (k : Nat) (hk : k < xs.length) : xs.getD k 0 < ys.getD k 0 := by
  have hlen := h.length_eq
  rw [List.getD_eq_getElem _ _ hk, List.getD_eq_getElem _ _ (by omega)]
  have := (List.forall₂_iff_get.mp h).2 k hk (by omega)
  simpa using this

theorem filter_range_getD (q : Nat → Bool) (n a : Nat) (ha : a < n)
    (hq : q a = true) (d : Nat) :
    ((List.range a).filter q).length < ((List.range n).filter q).length
    ∧ ((List.range n).filter q).getD ((List.range a).filter q).length d = a := by
  induction n with
  | zero => exact absurd ha (Nat.not_lt_zero a)
  | succ m ih =>
    rw [List.range_succ, List.filter_append]
    by_cases ham : a < m
    · obtain ⟨ih1, ih2⟩ := ih ham
      refine ⟨?_, ?_⟩
      · rw [List.length_append]; omega
      · rw [List.getD_append _ _ d _ ih1]; exact ih2
    · have haa : a = m := by omega
      subst haa
      have hfil : List.filter q [a] = [a] := by simp [List.filter_cons, hq]
      refine ⟨?_, ?_⟩
      · rw [List.length_append, hfil]; simp
      · rw [List.getD_append_right _ _ _ _ (Nat.le_refl _), Nat.sub_self, hfil]
        rfl

theorem mergeIdx_forall₂ {dims axes free c : List Nat}
    (hfree : List.Forall₂ (· < ·) free (freeDims dims axes))
    (hc : List.Forall₂ (· < ·) c (contractedDims dims axes)) :
    List.Forall₂ (· < ·) (mergeIdx dims.length axes free c) dims := by
  rw [List.forall₂_iff_get]
  refine ⟨by simp [mergeIdx], fun j h1 h2 => ?_⟩
  simp only [mergeIdx, List.length_map, List.length_range] at h1
  simp only [List.get_eq_getElem, mergeIdx, List.getElem_map, List.getElem_range]
  rw [← List.getD_eq_getElem dims 0 h2]
  by_cases hmem : axes.contains j = true
  · rw [if_pos hmem]
    have hjmem : j ∈ axes := by
      rw [contains_eq_decide_mem] at hmem
      exact of_decide_eq_true hmem
    have hidx : axes.indexOf j < axes.length := List.indexOf_lt_length.mpr hjmem
    have hclen : c.length = axes.length := by
      simpa [contractedDims] using hc.length_eq
    have hstep := forall₂_lt_getD hc (axes.indexOf j) (by omega)
    have hcd : (contractedDims dims axes).getD (axes.indexOf j) 0 = dims.getD j 0 := by
      unfold contractedDims
      rw [getD_map_lt _ _ _ hidx 0 0]
      congr 1
      rw [List.getD_eq_getElem _ _ hidx]
      exact List.getElem_indexOf hidx
    rw [hcd] at hstep
    exact hstep
  · rw [if_neg hmem]
    have hcf : axes.contains j = false := by
      revert hmem; cases axes.contains j <;> simp
    have hq : (fun b => !(axes.contains b)) j = true := by
      simp only [hcf, Bool.not_false]
    obtain ⟨hlt, hpos⟩ :=
      filter_range_getD (fun b => !(axes.contains b)) dims.length j h2 hq 0
    have hfreelen : free.length = (freeAxes dims.length axes).length := by
      simpa [freeDims] using hfree.length_eq
    have hstep := forall₂_lt_getD hfree (cntFreeBefore axes j)
      (by rw [hfreelen]; exact hlt)
    have hfd : (freeDims dims axes).getD (cntFreeBefore axes j) 0 = dims.getD j 0 := by
      unfold freeDims
      rw [getD_map_lt _ _ _
        (show cntFreeBefore axes j < (freeAxes dims.length axes).length from hlt) 0 0]
      congr 1
    rw [hfd] at hstep
    exact hstep

theorem allIndices_singleton (k : Nat) :
    allIndices [k] = (List.range k).map (fun c => [c]) :=
  List.flatMap_pure_eq_map (fun i => [i]) (List.range k)

end TensorSpec

namespace TensorSpec

theorem dot_ok_spec (t u : Tensor) (ax bx : List Nat)
    (hlen : ax.length = bx.length)
    (hax : ∀ a ∈ ax, a < t.rank)
    (hbx : ∀ b ∈ bx, b < u.rank)
    (hcd : contractedDims t.dims ax = contractedDims u.dims bx) :
    ∃ r, t.dot u ax bx = .ok r
      ∧ r.dims = freeDims t.dims ax ++ freeDims u.dims bx
      ∧ ∀ fs fo, List.Forall₂ (· < ·) fs (freeDims t.dims ax) →
          List.Forall₂ (· < ·) fo (freeDims u.dims bx) →
          r.get (fs ++ fo)
            = ((allIndices (contractedDims t.dims ax)).map (fun c =>
                t.get (mergeIdx t.rank ax fs c)
                  * u.get (mergeIdx u.rank bx fo c))).sum := by
  have haxall : ax.all (fun a => decide (a < t.dims.length)) = true := by
    rw [List.all_eq_true]
    intro a ha
    exact decide_eq_true (hax a ha)
  have hbxall : bx.all (fun b => decide (b < u.dims.length)) = true := by
    rw [List.all_eq_true]
    intro b hb
    exact decide_eq_true (hbx b hb)
  have h1 : ¬ (ax.length ≠ bx.length) := fun h => h hlen
  have h2 : ¬ ((!(ax.all (fun a => decide (a < t.dims.length))
      && bx.all (fun b => decide (b < u.dims.length)))) = true) := by
    rw [haxall, hbxall]
    simp
  have h3 : ¬ (contractedDims t.dims ax ≠ contractedDims u.dims bx) := fun h => h hcd
  unfold Tensor.dot
  rw [if_neg h1, if_neg h2, if_neg h3]
  refine ⟨_, rfl, rfl, ?_⟩
  intro fs fo hfs hfo
  have happ : List.Forall₂ (· < ·) (fs ++ fo)
      (freeDims t.dims ax ++ freeDims u.dims bx) := List.rel_append hfs hfo
  show ((allIndices (freeDims t.dims ax ++ freeDims u.dims bx)).map _).getD
      (offset (freeDims t.dims ax ++ freeDims u.dims bx) (fs ++ fo)) 0 = _
  rw [map_allIndices_getD _ 0 happ]
  have htake : (fs ++ fo).take (freeDims t.dims ax).length = fs :=
    List.take_left' hfs.length_eq
  have hdrop : (fs ++ fo).drop (freeDims t.dims ax).length = fo :=
    List.drop_left' hfs.length_eq
  simp only [htake, hdrop]
  rfl

end TensorSpec

namespace TensorSpec

/-- C1: for every pair of tensors and valid contraction axis lists, `dot`
returns a tensor whose shape is the concatenation of self's non-contracted
axis sizes followed by other's non-contracted axis sizes in their original
relative order, and whose element at a multi-index `(f_self..., f_other...)`
equals the sum over all contracted index combinations `c` of
`self[f_self..., c...] * other[f_other..., c...]`; in particular, for rank-2
tensors A (m by k) and B (k by n), `A.dot(B, {1}, {0})` equals standard
matrix multiplication elementwise. -/
theorem dot_contraction_law :
    (∀ (t u : Tensor) (ax bx : List Nat),
      WF t → WF u →
      ax.length = bx.length →
      (∀ a ∈ ax, a < t.rank) →
      (∀ b ∈ bx, b < u.rank) →
      contractedDims t.dims ax = contractedDims u.dims bx →
      ∃ r, t.dot u ax bx = .ok r
        ∧ r.dims = freeDims t.dims ax ++ freeDims u.dims bx
        ∧ ∀ fs fo, List.Forall₂ (· < ·) fs (freeDims t.dims ax) →
            List.Forall₂ (· < ·) fo (freeDims u.dims bx) →
            r.get (fs ++ fo)
              = ((allIndices (contractedDims t.dims ax)).map (fun c =>
                  t.get (mergeIdx t.rank ax fs c)
                    * u.get (mergeIdx u.rank bx fo c))).sum)
    ∧ (∀ (A B : Tensor) (m k n i j : Nat),
        A.dims = [m, k] → B.dims = [k, n] → WF A → WF B → i < m → j < n →
        ∃ r, A.dot B [1] [0] = .ok r ∧ r.dims = [m, n]
          ∧ r.get [i, j]
              = ((List.range k).map (fun c => A.get [i, c] * B.get [c, j])).sum) := by
  constructor
  · intro t u ax bx _ _ hlen hax hbx hcd
    exact dot_ok_spec t u ax bx hlen hax hbx hcd
  · intro A B m k n i j hA hB _ _ hi hj
    have hrankA : A.rank = 2 := by rw [Tensor.rank, hA]; rfl
    have hrankB : B.rank = 2 := by rw [Tensor.rank, hB]; rfl
    obtain ⟨r, hok, hdims, helem⟩ := dot_ok_spec A B [1] [0] rfl
      (by
        intro a ha
        simp only [List.mem_singleton] at ha
        subst ha
        rw [hrankA]
        omega)
      (by
        intro b hb
        simp only [List.mem_singleton] at hb
        subst hb
        rw [hrankB]
        omega)
      (by rw [hA, hB]; rfl)
    refine ⟨r, hok, ?_, ?_⟩
    · rw [hdims, hA, hB]; rfl
    · have h2 := helem [i] [j]
        (by rw [hA]; exact List.Forall₂.cons hi List.Forall₂.nil)
        (by rw [hB]; exact List.Forall₂.cons hj List.Forall₂.nil)
      rw [show ([i] ++ [j] : List Nat) = [i, j] from rfl] at h2
      rw [h2, hA]
      rw [show contractedDims [m, k] [1] = [k] from rfl]
      rw [allIndices_singleton, List.map_map]
      apply congrArg
      apply List.map_congr_left
      intro c _
      simp only [Function.comp]
      rw [hrankA, hrankB]
      rfl

/-- C1 witness: the contraction law applied to the concrete 2 by 2 matrices
`((1,2),(3,4))` and `((5,6),(7,8))`, at result index `(0,1)`. -/
theorem dot_contraction_law_witness :
    ∃ r, (Tensor.mk [2, 2] [1, 2, 3, 4]).dot (Tensor.mk [2, 2] [5, 6, 7, 8]) [1] [0]
        = .ok r
      ∧ r.dims = [2, 2]
      ∧ r.get [0, 1] = ((List.range 2).map (fun c =>
          (Tensor.mk [2, 2] [1, 2, 3, 4]).get [0, c]
            * (Tensor.mk [2, 2] [5, 6, 7, 8]).get [c, 1])).sum :=
  dot_contraction_law.2 (Tensor.mk [2, 2] [1, 2, 3, 4]) (Tensor.mk [2, 2] [5, 6, 7, 8])
    2 2 2 0 1 rfl rfl (by unfold WF; decide) (by unfold WF; decide)
    (by decide) (by decide)

end TensorSpec

namespace TensorSpec

/-- C3: with valid axis numbers and valid destination offsets,
`assign(source, destAxes, destOffsets)` succeeds if and only if the
destination region's element count equals the source's element count — a
per-axis shape match is not required, only the counts are compared; when
the counts differ it fails with `ShapeMismatch` and the destination tensor
is left unmodified. -/
theorem assign_element_count_law (t src : Tensor) (axes offs : List Nat)
    (haxes : ∀ a ∈ axes, a < t.rank)
    (hoffs : offsetsOK t.dims axes offs = true) :
    ((∃ r, t.assign src axes offs = .ok r)
      ↔ shapeSize src.dims = shapeSize (destExtents t.dims axes offs))
    ∧ (shapeSize src.dims ≠ shapeSize (destExtents t.dims axes offs) →
        mutate t (t.assign src axes offs) = (t, some .shapeMismatch)) := by
  have h1 : ¬((!(axes.all (fun a => decide (a < t.dims.length)))) = true) := by
    have hall : axes.all (fun a => decide (a < t.dims.length)) = true := by
      rw [List.all_eq_true]
      intro a ha
      exact decide_eq_true (haxes a ha)
    rw [hall]
    simp
  have h2 : ¬((!(offsetsOK t.dims axes offs)) = true) := by
    rw [hoffs]
    simp
  constructor
  · constructor
    · rintro ⟨r, hr⟩
      by_contra hne
      unfold Tensor.assign at hr
      rw [if_neg h1, if_neg h2, if_pos hne] at hr
      cases hr
    · intro heq
      unfold Tensor.assign
      rw [if_neg h1, if_neg h2, if_neg (fun h => h heq)]
      exact ⟨_, rfl⟩
  · intro hne
    unfold Tensor.assign
    rw [if_neg h1, if_neg h2, if_pos hne]
    rfl

/-- C3 witness: the documented example — destination of shape `{2,3,5,7}`,
source of shape `{6,35}` (210 elements each), axes `{1,2}`, offsets `{0}`. -/
theorem assign_element_count_law_witness :
    ((∃ r, (alloc [2, 3, 5, 7] 1).assign (alloc [6, 35] 2) [1, 2] [0] = .ok r)
      ↔ shapeSize (alloc [6, 35] 2).dims
          = shapeSize (destExtents (alloc [2, 3, 5, 7] 1).dims [1, 2] [0]))
    ∧ (shapeSize (alloc [6, 35] 2).dims
          ≠ shapeSize (destExtents (alloc [2, 3, 5, 7] 1).dims [1, 2] [0]) →
        mutate (alloc [2, 3, 5, 7] 1)
            ((alloc [2, 3, 5, 7] 1).assign (alloc [6, 35] 2) [1, 2] [0])
          = (alloc [2, 3, 5, 7] 1, some .shapeMismatch)) :=
  assign_element_count_law (alloc [2, 3, 5, 7] 1) (alloc [6, 35] 2) [1, 2] [0]
    (by decide) (by decide)

/-- C8: all-or-nothing failure — whenever a modelled core operation
(`assign`, `transpose`, `dot`, fixed-rank `alloc`, derived assignment)
signals an error, the receiving tensor's shape and storage are exactly as
they were before the call. -/
theorem failure_leaves_unmodified :
    (∀ (t src : Tensor) (axes offs : List Nat) (e : Err),
      (mutate t (t.assign src axes offs)).2 = some e →
      (mutate t (t.assign src axes offs)).1 = t)
    ∧ (∀ (t : Tensor) (p : List Nat) (e : Err),
      (mutate t (t.transpose p)).2 = some e →
      (mutate t (t.transpose p)).1 = t)
    ∧ (∀ (t u : Tensor) (ax bx : List Nat) (e : Err),
      (mutate t (t.dot u ax bx)).2 = some e →
      (mutate t (t.dot u ax bx)).1 = t)
    ∧ (∀ (α : Type) (t : TensorD α) (dims : List Nat) (fill : α) (e : Err),
      (mutate t (t.alloc dims fill)).2 = some e →
      (mutate t (t.alloc dims fill)).1 = t)
    ∧ (∀ (α β : Type) (t : TensorD β) (src : TensorD α) (cv : α → β) (e : Err),
      (mutate t (t.assignFrom src cv)).2 = some e →
      (mutate t (t.assignFrom src cv)).1 = t) := by
  refine ⟨?_, ?_, ?_, ?_, ?_⟩
  · intro t src axes offs e hm
    cases h : t.assign src axes offs with
    | ok r => rw [h] at hm; simp [mutate] at hm
    | error e2 => rfl
  · intro t p e hm
    cases h : t.transpose p with
    | ok r => rw [h] at hm; simp [mutate] at hm
    | error e2 => rfl
  · intro t u ax bx e hm
    cases h : t.dot u ax bx with
    | ok r => rw [h] at hm; simp [mutate] at hm
    | error e2 => rfl
  · intro α t dims fill e hm
    cases h : t.alloc dims fill with
    | ok r => rw [h] at hm; simp [mutate] at hm
    | error e2 => rfl
  · intro α β t src cv e hm
    cases h : t.assignFrom src cv with
    | ok r => rw [h] at hm; simp [mutate] at hm
    | error e2 => rfl

/-- C8 witness: a failing `assign` (axis number 5 on a rank-1 tensor) leaves
the receiving tensor unmodified. -/
theorem failure_leaves_unmodified_witness :
    (mutate (alloc [2] 0) ((alloc [2] 0).assign (alloc [2] 0) [5] [])).1
      = alloc [2] 0 :=
  failure_leaves_unmodified.1 (alloc [2] 0) (alloc [2] 0) [5] [] .outOfRange
    (by decide)

/-- C9: for every fixed-rank tensor, an operation that would change its rank
fails with `RankMismatch` and leaves the tensor unchanged — `alloc` with a
different number of dims fails with `RankMismatch`, assignment from a tensor
of a different rank fails with `RankMismatch`, while assignment from a
same-rank tensor of a different component type succeeds with per-element
numeric conversion. -/
theorem fixed_rank_enforcement {α β : Type} (cv : α → β) (t : TensorD β) (n : Nat)
    (hfix : t.fixedRank = some n) :
    (∀ (dims : List Nat) (fill : β), dims.length ≠ n →
      t.alloc dims fill = .error .rankMismatch
        ∧ mutate t (t.alloc dims fill) = (t, some .rankMismatch))
    ∧ (∀ src : TensorD α, src.rank ≠ n →
      t.assignFrom src cv = .error .rankMismatch
        ∧ mutate t (t.assignFrom src cv) = (t, some .rankMismatch))
    ∧ (∀ src : TensorD α, src.rank = n →
      t.assignFrom src cv = .ok ⟨src.dims, src.data.map cv, some n⟩) := by
  refine ⟨?_, ?_, ?_⟩
  · intro dims fill hne
    have h : t.alloc dims fill = .error .rankMismatch := by
      unfold TensorD.alloc
      rw [hfix]
      exact if_neg hne
    exact ⟨h, by rw [h]; rfl⟩
  · intro src hne
    have h : t.assignFrom src cv = .error .rankMismatch := by
      unfold TensorD.assignFrom
      rw [hfix]
      exact if_neg hne
    exact ⟨h, by rw [h]; rfl⟩
  · intro src heq
    unfold TensorD.assignFrom
    rw [hfix]
    exact if_pos heq

/-- C9 witness: a fixed-rank-3 integer tensor — `alloc` with 4 dims fails
with `RankMismatch`, assignment from a rank-2 natural-number tensor fails
with `RankMismatch`, and assignment from a rank-3 natural-number tensor
succeeds with per-element conversion. -/
theorem fixed_rank_enforcement_witness :
    ((TensorD.mk [3, 5, 7] ([] : List Int) (some 3)).alloc [2, 3, 5, 7] (1 : Int)
        = .error .rankMismatch
      ∧ mutate (TensorD.mk [3, 5, 7] ([] : List Int) (some 3))
          ((TensorD.mk [3, 5, 7] ([] : List Int) (some 3)).alloc [2, 3, 5, 7] (1 : Int))
        = (TensorD.mk [3, 5, 7] ([] : List Int) (some 3), some .rankMismatch))
    ∧ ((TensorD.mk [3, 5, 7] ([] : List Int) (some 3)).assignFrom
          (TensorD.mk [2, 2] ([3, 4, 5, 6] : List Nat) none) (Int.ofNat)
        = .error .rankMismatch)
    ∧ ((TensorD.mk [3, 5, 7] ([] : List Int) (some 3)).assignFrom
          (TensorD.mk [1, 1, 2] ([3, 4] : List Nat) none) (Int.ofNat)
        = .ok ⟨[1, 1, 2], [(3 : Int), 4], some 3⟩) :=
  ⟨(fixed_rank_enforcement (Int.ofNat) (TensorD.mk [3, 5, 7] [] (some 3)) 3 rfl).1
      [2, 3, 5, 7] 1 (by decide),
    ((fixed_rank_enforcement (Int.ofNat) (TensorD.mk [3, 5, 7] [] (some 3)) 3 rfl).2.1
      (TensorD.mk [2, 2] [3, 4, 5, 6] none) (by decide)).1,
    by
      have := (fixed_rank_enforcement (Int.ofNat)
        (TensorD.mk [3, 5, 7] [] (some 3)) 3 rfl).2.2
        (TensorD.mk [1, 1, 2] [3, 4] none) (by decide)
      simpa using this⟩

end TensorSpec
